import Mathlib

/-!
Verification of the background estimator `remove_fluo_spectra_lowest_point`
from `vodinhprocessor.py` (Automated Raman Spectrum Background Subtraction
Processor).  The numeric computation is embedded over the rationals `ℚ`,
modelling exact real arithmetic; the optional Savitzky-Golay smoother is an
external scipy collaborator and is modelled as an explicit function parameter
`smoother : List ℚ → List ℚ`, as the design treats it as an opaque
shape-preserving collaborator.
-/

namespace Vodinh

/-- the result of `np.asarray(input_spectrum)`: either a one-dimensional
array or a two-dimensional array given by its list of rows. -/
inductive RamanInput where
  | oneD (v : List ℚ)
  | twoD (rows : List (List ℚ))

/-- validation errors raised by `remove_fluo_spectra_lowest_point`:
`invalidShape` for the `ndim != 2 or shape[1] != 2` check,
`invalidParameterTooSmall` for `int_width < 2`, and
`invalidParameterOdd` for `int_width % 2 != 0`. -/
inductive RamanError where
  | invalidShape
  | invalidParameterTooSmall
  | invalidParameterOdd
deriving DecidableEq

/-- a predicate distinguishing the two `InvalidParameter` sub-errors from the
`InvalidShape` error. -/
def RamanError.isInvalidParameter : RamanError → Bool
  | .invalidShape => false
  | .invalidParameterTooSmall => true
  | .invalidParameterOdd => true

/-- the candidate value computed in the innermost loop of the source:
`temp_intensity = (preprocessed_y[i+k] - preprocessed_y[i-j]) * (j/(k+j)) + preprocessed_y[i-j]`.
List accesses use `getD` with default `0`; inside the loop ranges all accesses
are in bounds so the default is never consulted (proved below). -/
def temp_intensity (py : List ℚ) (i j k : ℕ) : ℚ :=
  (py.getD (i + k) 0 - py.getD (i - j) 0) * ((j : ℚ) / ((k : ℚ) + (j : ℚ)))
    + py.getD (i - j) 0

/-- a bounds-checked variant of `temp_intensity`: it returns `none` whenever
one of the accesses `preprocessed_y[i-j]` or `preprocessed_y[i+k]` would fall
outside `0 .. n-1` (Python would wrap a negative `i - j` around, hence the
explicit `j ≤ i` guard). -/
def temp_intensityChecked (py : List ℚ) (i j k : ℕ) : Option ℚ :=
  if j ≤ i then
    match py[i + k]?, py[i - j]? with
    | some yr, some yl => some ((yr - yl) * ((j : ℚ) / ((k : ℚ) + (j : ℚ))) + yl)
    | _, _ => none
  else none

/-- the running-minimum update of the source loop: `lowest_intensity` starts
at `np.inf` (modelled by `none`) and is replaced by `temp_intensity` whenever
`temp_intensity < lowest_intensity`. -/
def optMin (acc : Option ℚ) (t : ℚ) : Option ℚ :=
  match acc with
  | none => some t
  | some m => if t < m then some t else some m

/-- the final value of `lowest_intensity` after the double loop
`for j in range(1, half_width + 1): for k in range(1, half_width + 1)`
at a fixed index `i`. -/
def lowest_intensity (py : List ℚ) (i half_width : ℕ) : Option ℚ :=
  (List.range half_width).foldl
    (fun acc j => (List.range half_width).foldl
      (fun acc2 k => optMin acc2 (temp_intensity py i (j + 1) (k + 1))) acc)
    none

/-- the flattened list of all candidate values scanned by the double loop,
in loop order. -/
def candidates (py : List ℚ) (i half_width : ℕ) : List ℚ :=
  (List.range half_width).flatMap
    (fun j => (List.range half_width).map
      (fun k => temp_intensity py i (j + 1) (k + 1)))

/-- the background array `bg`: a copy of `preprocessed_y` whose entries at the
interior indices `half_width ≤ i < n - half_width` are overwritten with the
loop minimum.  With `half_width ≥ 1` (guaranteed by validation) the minimum
always exists, so the `getD` default is never consulted. -/
def background (py : List ℚ) (half_width : ℕ) : List ℚ :=
  (List.range py.length).map fun i =>
    if half_width ≤ i ∧ i < py.length - half_width then
      (lowest_intensity py i half_width).getD (py.getD i 0)
    else py.getD i 0

/-- the wavenumber column `x = input_spectrum[:, 0]`. -/
def wavenumbers (rows : List (List ℚ)) : List ℚ :=
  rows.map fun r => r.getD 0 0

/-- the raw intensity column `y = input_spectrum[:, 1].copy()`. -/
def intensities (rows : List (List ℚ)) : List ℚ :=
  rows.map fun r => r.getD 1 0

/-- the local `preprocessed_y`: the smoothed intensity column when
`need_to_be_smoothed` is true, otherwise a copy of the raw intensities. -/
def preprocessed_y (rows : List (List ℚ)) (smoother : List ℚ → List ℚ)
    (need_to_be_smoothed : Bool) : List ℚ :=
  if need_to_be_smoothed then smoother (intensities rows) else intensities rows

/-- the final `clean_spectrum = np.column_stack((x, preprocessed_y - bg))`:
the wavenumber column zipped with the elementwise difference of the
preprocessed intensities and the background. -/
def clean_spectrum (rows : List (List ℚ)) (smoother : List ℚ → List ℚ)
    (need_to_be_smoothed : Bool) (half_width : ℕ) : List (ℚ × ℚ) :=
  List.zip (wavenumbers rows)
    (List.zipWith (fun a b => a - b)
      (preprocessed_y rows smoother need_to_be_smoothed)
      (background (preprocessed_y rows smoother need_to_be_smoothed) half_width))

/-- the full estimator `remove_fluo_spectra_lowest_point(input_spectrum,
int_width, need_to_be_smoothed)`.  Validation happens in source order: shape
first, then `int_width < 2`, then oddness.  `smoother` stands for the
external `savgol_filter(y, window_length=5, polyorder=1)` collaborator, only
invoked when `need_to_be_smoothed` is true. -/
def remove_fluo_spectra_lowest_point (input_spectrum : RamanInput)
    (int_width : ℤ) (smoother : List ℚ → List ℚ) (need_to_be_smoothed : Bool) :
    Except RamanError (List (ℚ × ℚ)) :=
  match input_spectrum with
  | .oneD _ => .error .invalidShape
  | .twoD rows =>
    if (rows.all fun r => r.length == 2) = false then .error .invalidShape
    else if int_width < 2 then .error .invalidParameterTooSmall
    else if int_width % 2 ≠ 0 then .error .invalidParameterOdd
    else .ok (clean_spectrum rows smoother need_to_be_smoothed (int_width.toNat / 2))

/-! ### Properties of the running minimum -/

lemma optMin_exists (acc : Option ℚ) (t : ℚ) :
    ∃ a, optMin acc t = some a ∧ a ≤ t ∧ (∀ b, acc = some b → a ≤ b) ∧
      (a = t ∨ acc = some a) := by
  cases acc with
  | none => exact ⟨t, rfl, le_refl t, by simp, Or.inl rfl⟩
  | some b =>
    by_cases h : t < b
    · refine ⟨t, by simp [optMin, h], le_refl t, ?_, Or.inl rfl⟩
      intro c hc
      cases hc
      exact le_of_lt h
    · refine ⟨b, by simp [optMin, h], le_of_not_lt h, ?_, Or.inr rfl⟩
      intro c hc
      cases hc
      exact le_refl b

lemma foldl_optMin_spec (l : List ℚ) :
    ∀ (acc : Option ℚ) (m : ℚ), l.foldl optMin acc = some m →
      (∀ x ∈ l, m ≤ x) ∧ (∀ a, acc = some a → m ≤ a) ∧ (m ∈ l ∨ acc = some m) := by
  induction l with
  | nil =>
    intro acc m h
    simp only [List.foldl_nil] at h
    exact ⟨by simp, fun a ha => by rw [ha] at h; cases h; exact le_refl m,
      Or.inr h⟩
  | cons x l ih =>
    intro acc m h
    simp only [List.foldl_cons] at h
    obtain ⟨h1, h2, h3⟩ := ih (optMin acc x) m h
    obtain ⟨a, ha, hat, hacc, hor⟩ := optMin_exists acc x
    have hma : m ≤ a := h2 a ha
    refine ⟨?_, ?_, ?_⟩
    · intro z hz
      rcases List.mem_cons.mp hz with hz | hz
      · exact hz ▸ le_trans hma hat
      · exact h1 z hz
    · intro b hb
      exact le_trans hma (hacc b hb)
    · rcases h3 with h3 | h3
      · exact Or.inl (List.mem_cons_of_mem x h3)
      · rw [ha] at h3
        have ham : a = m := by injection h3
        subst ham
        rcases hor with rfl | hor
        · exact Or.inl (List.mem_cons_self a l)
        · exact Or.inr hor

lemma foldl_optMin_isSome_of_ne_nil (l : List ℚ) (hl : l ≠ []) (acc : Option ℚ) :
    ∃ m, l.foldl optMin acc = some m := by
  induction l generalizing acc with
  | nil => exact absurd rfl hl
  | cons x l ih =>
    obtain ⟨a, ha, -⟩ := optMin_exists acc x
    rcases eq_or_ne l [] with rfl | hne
    · exact ⟨a, by simpa using ha⟩
    · simpa only [List.foldl_cons] using ih hne (optMin acc x)

/-! ### The double loop as a minimum over the flattened candidate list -/

lemma foldl_foldl_eq_foldl_flatMap {α β γ : Type} (f : α → β → α) (g : γ → List β) :
    ∀ (L : List γ) (a : α),
      L.foldl (fun acc c => (g c).foldl f acc) a = (L.flatMap g).foldl f a := by
  intro L
  induction L with
  | nil => intro a; rfl
  | cons c L ih =>
    intro a
    rw [List.flatMap_cons, List.foldl_append, List.foldl_cons, ih]

lemma lowest_intensity_eq_foldl_candidates (py : List ℚ) (i half_width : ℕ) :
    lowest_intensity py i half_width =
      (candidates py i half_width).foldl optMin none := by
  rw [lowest_intensity, candidates,
    ← foldl_foldl_eq_foldl_flatMap optMin
      (fun j => (List.range half_width).map
        (fun k => temp_intensity py i (j + 1) (k + 1)))]
  simp only [List.foldl_map]

lemma mem_candidates_iff (py : List ℚ) (i half_width : ℕ) (t : ℚ) :
    t ∈ candidates py i half_width ↔
      ∃ j k, 1 ≤ j ∧ j ≤ half_width ∧ 1 ≤ k ∧ k ≤ half_width ∧
        t = temp_intensity py i j k := by
  simp only [candidates, List.mem_flatMap, List.mem_map, List.mem_range]
  constructor
  · rintro ⟨j, hj, k, hk, rfl⟩
    exact ⟨j + 1, k + 1, Nat.succ_le_succ (Nat.zero_le j), Nat.succ_le_of_lt hj,
      Nat.succ_le_succ (Nat.zero_le k), Nat.succ_le_of_lt hk, rfl⟩
  · rintro ⟨j, k, hj1, hj2, hk1, hk2, rfl⟩
    refine ⟨j - 1, by omega, k - 1, by omega, ?_⟩
    congr 1 <;> omega

lemma candidates_ne_nil (py : List ℚ) (i half_width : ℕ) (h : 1 ≤ half_width) :
    candidates py i half_width ≠ [] := by
  intro hnil
  have : temp_intensity py i 1 1 ∈ candidates py i half_width :=
    (mem_candidates_iff py i half_width _).mpr ⟨1, 1, le_refl 1, h, le_refl 1, h, rfl⟩
  rw [hnil] at this
  exact absurd this (List.not_mem_nil _)

/-- the loop minimum exists as soon as `half_width ≥ 1`, it is a lower bound
on every candidate, and it is attained by some candidate. -/
lemma lowest_intensity_spec (py : List ℚ) (i half_width : ℕ) (h : 1 ≤ half_width) :
    ∃ m, lowest_intensity py i half_width = some m ∧
      (∀ j k, 1 ≤ j → j ≤ half_width → 1 ≤ k → k ≤ half_width →
        m ≤ temp_intensity py i j k) ∧
      (∃ j k, 1 ≤ j ∧ j ≤ half_width ∧ 1 ≤ k ∧ k ≤ half_width ∧
        m = temp_intensity py i j k) := by
  rw [lowest_intensity_eq_foldl_candidates]
  obtain ⟨m, hm⟩ := foldl_optMin_isSome_of_ne_nil _ (candidates_ne_nil py i half_width h) none
  obtain ⟨hle, -, hmem⟩ := foldl_optMin_spec _ none m hm
  refine ⟨m, hm, ?_, ?_⟩
  · intro j k hj1 hj2 hk1 hk2
    exact hle _ ((mem_candidates_iff py i half_width _).mpr
      ⟨j, k, hj1, hj2, hk1, hk2, rfl⟩)
  · rcases hmem with hmem | hmem
    · exact (mem_candidates_iff py i half_width m).mp hmem
    · cases hmem

/-! ### Pointwise description of the background and of the clean spectrum -/

lemma background_length (py : List ℚ) (half_width : ℕ) :
    (background py half_width).length = py.length := by
  simp [background]

lemma background_getD (py : List ℚ) (half_width i : ℕ) (hi : i < py.length) :
    (background py half_width).getD i 0 =
      if half_width ≤ i ∧ i < py.length - half_width then
        (lowest_intensity py i half_width).getD (py.getD i 0)
      else py.getD i 0 := by
  have h2 : i < ((List.range py.length).map (fun t =>
      if half_width ≤ t ∧ t < py.length - half_width then
        (lowest_intensity py t half_width).getD (py.getD t 0)
      else py.getD t 0)).length := by simpa using hi
  rw [background, List.getD_eq_getElem _ _ h2, List.getElem_map, List.getElem_range]

lemma intensities_length (rows : List (List ℚ)) :
    (intensities rows).length = rows.length := by
  simp [intensities]

lemma wavenumbers_length (rows : List (List ℚ)) :
    (wavenumbers rows).length = rows.length := by
  simp [wavenumbers]

lemma preprocessed_y_false (rows : List (List ℚ)) (smoother : List ℚ → List ℚ) :
    preprocessed_y rows smoother false = intensities rows := rfl

lemma clean_spectrum_length (rows : List (List ℚ)) (smoother : List ℚ → List ℚ)
    (s : Bool) (half_width : ℕ)
    (hpy : (preprocessed_y rows smoother s).length = rows.length) :
    (clean_spectrum rows smoother s half_width).length = rows.length := by
  simp [clean_spectrum, List.length_zip, List.length_zipWith, background_length,
    wavenumbers_length, hpy]

lemma clean_spectrum_getD (rows : List (List ℚ)) (smoother : List ℚ → List ℚ)
    (s : Bool) (half_width i : ℕ)
    (hpy : (preprocessed_y rows smoother s).length = rows.length)
    (hi : i < rows.length) :
    (clean_spectrum rows smoother s half_width).getD i (0, 0) =
      ((wavenumbers rows).getD i 0,
        (preprocessed_y rows smoother s).getD i 0 -
          (background (preprocessed_y rows smoother s) half_width).getD i 0) := by
  have hx : i < (wavenumbers rows).length := by rw [wavenumbers_length]; exact hi
  have hy : i < (preprocessed_y rows smoother s).length := by rw [hpy]; exact hi
  have hbg : i < (background (preprocessed_y rows smoother s) half_width).length := by
    rw [background_length]; exact hy
  have hzw : i < (List.zipWith (fun a b => a - b) (preprocessed_y rows smoother s)
      (background (preprocessed_y rows smoother s) half_width)).length := by
    rw [List.length_zipWith]; exact lt_min hy hbg
  have hlen : i < (List.zip (wavenumbers rows)
      (List.zipWith (fun a b => a - b) (preprocessed_y rows smoother s)
        (background (preprocessed_y rows smoother s) half_width))).length := by
    rw [List.length_zip]; exact lt_min hx hzw
  show (List.zip (wavenumbers rows)
      (List.zipWith (fun a b => a - b) (preprocessed_y rows smoother s)
        (background (preprocessed_y rows smoother s) half_width))).getD i (0, 0) = _
  rw [List.getD_eq_getElem _ _ hlen, List.getElem_zip, List.getElem_zipWith,
    List.getD_eq_getElem _ _ hx, List.getD_eq_getElem _ _ hy,
    List.getD_eq_getElem _ _ hbg]

/-! ### The validated success path -/

lemma half_width_pos (w : ℤ) (hw2 : 2 ≤ w) : 1 ≤ w.toNat / 2 := by omega

lemma remove_ok (rows : List (List ℚ)) (hshape : ∀ r ∈ rows, r.length = 2)
    (w : ℤ) (hw2 : 2 ≤ w) (hev : w % 2 = 0)
    (smoother : List ℚ → List ℚ) (s : Bool) :
    remove_fluo_spectra_lowest_point (.twoD rows) w smoother s =
      .ok (clean_spectrum rows smoother s (w.toNat / 2)) := by
  have hall : (rows.all fun r => r.length == 2) = true := by
    rw [List.all_eq_true]
    intro r hr
    exact beq_iff_eq.mpr (hshape r hr)
  simp [remove_fluo_spectra_lowest_point, hall, not_lt.mpr hw2, hev]

lemma wavenumbers_getD (rows : List (List ℚ)) (i : ℕ) (hi : i < rows.length) :
    (wavenumbers rows).getD i 0 = (rows.getD i []).getD 0 0 := by
  have h1 : i < (rows.map fun r => r.getD 0 0).length := by simpa using hi
  show (rows.map fun r => r.getD 0 0).getD i 0 = _
  rw [List.getD_eq_getElem _ _ h1, List.getElem_map, List.getD_eq_getElem _ _ hi]

lemma intensities_getD (rows : List (List ℚ)) (i : ℕ) (hi : i < rows.length) :
    (intensities rows).getD i 0 = (rows.getD i []).getD 1 0 := by
  have h1 : i < (rows.map fun r => r.getD 1 0).length := by simpa using hi
  show (rows.map fun r => r.getD 1 0).getD i 0 = _
  rw [List.getD_eq_getElem _ _ h1, List.getElem_map, List.getD_eq_getElem _ _ hi]

/-! ### Claim theorems -/

/-- C1: for every valid (N,2) spectrum with smoothing off and every valid
even window width with `half_width = int_width / 2`, at every interior index
`half_width ≤ i < N - half_width` the background value equals the exact
minimum, over all pairs (j,k) with j,k ∈ [1, half_width], of the candidate
`(y[i+k] - y[i-j]) * (j/(j+k)) + y[i-j]`; hence the output intensity at i is
`y[i]` minus that minimum, and the background is ≤ every individual
candidate. -/
theorem C1_interior_background_is_exact_minimum
    (rows : List (List ℚ)) (hshape : ∀ r ∈ rows, r.length = 2)
    (w : ℤ) (hw2 : 2 ≤ w) (hev : w % 2 = 0) (smoother : List ℚ → List ℚ)
    (i : ℕ) (hi1 : w.toNat / 2 ≤ i) (hi2 : i < rows.length - w.toNat / 2) :
    ∃ out m,
      remove_fluo_spectra_lowest_point (.twoD rows) w smoother false = .ok out ∧
      lowest_intensity (intensities rows) i (w.toNat / 2) = some m ∧
      (background (intensities rows) (w.toNat / 2)).getD i 0 = m ∧
      (∀ j k, 1 ≤ j → j ≤ w.toNat / 2 → 1 ≤ k → k ≤ w.toNat / 2 →
        m ≤ temp_intensity (intensities rows) i j k) ∧
      (∃ j k, 1 ≤ j ∧ j ≤ w.toNat / 2 ∧ 1 ≤ k ∧ k ≤ w.toNat / 2 ∧
        m = temp_intensity (intensities rows) i j k) ∧
      (out.getD i (0, 0)).2 = (intensities rows).getD i 0 - m := by
  obtain ⟨m, hm, hle, hatt⟩ :=
    lowest_intensity_spec (intensities rows) i (w.toNat / 2) (half_width_pos w hw2)
  have hi : i < rows.length := lt_of_lt_of_le hi2 (Nat.sub_le _ _)
  have hpy : (preprocessed_y rows smoother false).length = rows.length :=
    intensities_length rows
  have hiy : i < (intensities rows).length := by
    rw [intensities_length]; exact hi
  have hbg : (background (intensities rows) (w.toNat / 2)).getD i 0 = m := by
    rw [background_getD _ _ _ hiy,
      if_pos ⟨hi1, by rw [intensities_length]; exact hi2⟩, hm]
    rfl
  refine ⟨_, m, remove_ok rows hshape w hw2 hev smoother false, hm, hbg, hle, hatt, ?_⟩
  rw [clean_spectrum_getD rows smoother false _ i hpy hi]
  simp only [preprocessed_y_false]
  rw [hbg]

/-- C1 witness: the interior-minimum description instantiated on the
concrete spectrum [[0,1],[1,5],[2,0]] with window width 2 at index 1. -/
theorem C1_witness :
    ∃ out m,
      remove_fluo_spectra_lowest_point
        (.twoD [[0,1],[1,5],[2,0]]) 2 id false = .ok out ∧
      lowest_intensity (intensities [[0,1],[1,5],[2,0]]) 1 ((2:ℤ).toNat / 2) = some m ∧
      (background (intensities [[0,1],[1,5],[2,0]]) ((2:ℤ).toNat / 2)).getD 1 0 = m ∧
      (∀ j k, 1 ≤ j → j ≤ (2:ℤ).toNat / 2 → 1 ≤ k → k ≤ (2:ℤ).toNat / 2 →
        m ≤ temp_intensity (intensities [[0,1],[1,5],[2,0]]) 1 j k) ∧
      (∃ j k, 1 ≤ j ∧ j ≤ (2:ℤ).toNat / 2 ∧ 1 ≤ k ∧ k ≤ (2:ℤ).toNat / 2 ∧
        m = temp_intensity (intensities [[0,1],[1,5],[2,0]]) 1 j k) ∧
      (out.getD 1 (0, 0)).2 = (intensities [[0,1],[1,5],[2,0]]).getD 1 0 - m :=
  C1_interior_background_is_exact_minimum [[0,1],[1,5],[2,0]] (by decide)
    2 (by decide) (by decide) id 1 (by decide) (by decide)

/-- C2: for every valid (N,2) spectrum with smoothing off and every valid
even window width, at every edge index (within `half_width` of either end)
the background equals the preprocessed intensity at that index, so the
output intensity there is exactly zero. -/
theorem C2_edge_rows_zero_subtraction
    (rows : List (List ℚ)) (hshape : ∀ r ∈ rows, r.length = 2)
    (w : ℤ) (hw2 : 2 ≤ w) (hev : w % 2 = 0) (smoother : List ℚ → List ℚ)
    (i : ℕ) (hi : i < rows.length)
    (hedge : i < w.toNat / 2 ∨ rows.length - w.toNat / 2 ≤ i) :
    ∃ out,
      remove_fluo_spectra_lowest_point (.twoD rows) w smoother false = .ok out ∧
      (background (intensities rows) (w.toNat / 2)).getD i 0 =
        (intensities rows).getD i 0 ∧
      (out.getD i (0, 0)).2 = 0 := by
  have hpy : (preprocessed_y rows smoother false).length = rows.length :=
    intensities_length rows
  have hiy : i < (intensities rows).length := by
    rw [intensities_length]; exact hi
  have hbg : (background (intensities rows) (w.toNat / 2)).getD i 0 =
      (intensities rows).getD i 0 := by
    rw [background_getD _ _ _ hiy, if_neg]
    rw [intensities_length]
    omega
  refine ⟨_, remove_ok rows hshape w hw2 hev smoother false, hbg, ?_⟩
  rw [clean_spectrum_getD rows smoother false _ i hpy hi]
  simp only [preprocessed_y_false]
  rw [hbg, sub_self]

/-- C2 witness: zero net subtraction at the edge index 0 of the concrete
spectrum [[0,1],[1,5],[2,0]] with window width 2. -/
theorem C2_witness :
    ∃ out,
      remove_fluo_spectra_lowest_point
        (.twoD [[0,1],[1,5],[2,0]]) 2 id false = .ok out ∧
      (background (intensities [[0,1],[1,5],[2,0]]) ((2:ℤ).toNat / 2)).getD 0 0 =
        (intensities [[0,1],[1,5],[2,0]]).getD 0 0 ∧
      (out.getD 0 (0, 0)).2 = 0 :=
  C2_edge_rows_zero_subtraction [[0,1],[1,5],[2,0]] (by decide)
    2 (by decide) (by decide) id 0 (by decide) (by decide)

/-- C3: for every valid (N,2) input, any valid window width and either
smoothing setting (with a length-preserving smoother), the clean spectrum
has exactly N rows of pairs, in the original order, and its first
(wavenumber) component at every row equals the input's first column. -/
theorem C3_shape_and_wavenumbers_preserved
    (rows : List (List ℚ)) (hshape : ∀ r ∈ rows, r.length = 2)
    (w : ℤ) (hw2 : 2 ≤ w) (hev : w % 2 = 0)
    (smoother : List ℚ → List ℚ) (s : Bool)
    (hsm : ∀ l, (smoother l).length = l.length) :
    ∃ out,
      remove_fluo_spectra_lowest_point (.twoD rows) w smoother s = .ok out ∧
      out.length = rows.length ∧
      ∀ i, i < rows.length → (out.getD i (0, 0)).1 = (rows.getD i []).getD 0 0 := by
  have hpy : (preprocessed_y rows smoother s).length = rows.length := by
    cases s
    · exact intensities_length rows
    · rw [preprocessed_y]
      simp [hsm, intensities_length]
  refine ⟨_, remove_ok rows hshape w hw2 hev smoother s,
    clean_spectrum_length rows smoother s _ hpy, ?_⟩
  intro i hi
  rw [clean_spectrum_getD rows smoother s _ i hpy hi]
  exact wavenumbers_getD rows i hi

/-- C3 witness: shape preservation on the concrete spectrum
[[0,1],[1,5],[2,0]] with window width 2 and smoothing on (identity
smoother). -/
theorem C3_witness :
    ∃ out,
      remove_fluo_spectra_lowest_point (.twoD [[0,1],[1,5],[2,0]]) 2 id true = .ok out ∧
      out.length = ([[0,1],[1,5],[2,0]] : List (List ℚ)).length ∧
      ∀ i, i < ([[0,1],[1,5],[2,0]] : List (List ℚ)).length →
        (out.getD i (0, 0)).1 = (([[0,1],[1,5],[2,0]] : List (List ℚ)).getD i []).getD 0 0 :=
  C3_shape_and_wavenumbers_preserved [[0,1],[1,5],[2,0]] (by decide)
    2 (by decide) (by decide) id true (fun _ => rfl)

/-- C4: on any (N,2) input, window width 1 fails as too small, width 3 fails
as odd, width 4 is accepted, and in general the call fails with an
InvalidParameter error exactly when the integer window width is < 2 or
odd. -/
theorem C4_window_width_validation
    (rows : List (List ℚ)) (hshape : ∀ r ∈ rows, r.length = 2)
    (smoother : List ℚ → List ℚ) (s : Bool) :
    remove_fluo_spectra_lowest_point (.twoD rows) 1 smoother s =
      .error .invalidParameterTooSmall ∧
    remove_fluo_spectra_lowest_point (.twoD rows) 3 smoother s =
      .error .invalidParameterOdd ∧
    (∃ out, remove_fluo_spectra_lowest_point (.twoD rows) 4 smoother s = .ok out) ∧
    (∀ w : ℤ,
      (∃ e, remove_fluo_spectra_lowest_point (.twoD rows) w smoother s = .error e ∧
        e.isInvalidParameter = true) ↔ (w < 2 ∨ w % 2 ≠ 0)) := by
  have hall : (rows.all fun r => r.length == 2) = true := by
    rw [List.all_eq_true]
    intro r hr
    exact beq_iff_eq.mpr (hshape r hr)
  refine ⟨?_, ?_, ?_, ?_⟩
  · norm_num [remove_fluo_spectra_lowest_point, hall]
  · norm_num [remove_fluo_spectra_lowest_point, hall]
  · exact ⟨_, remove_ok rows hshape 4 (by norm_num) (by norm_num) smoother s⟩
  · intro w
    constructor
    · rintro ⟨e, he, -⟩
      by_contra hcon
      push_neg at hcon
      obtain ⟨hge, hmod⟩ := hcon
      rw [remove_ok rows hshape w hge hmod smoother s] at he
      cases he
    · intro hcon
      by_cases h2 : w < 2
      · exact ⟨.invalidParameterTooSmall,
          by simp [remove_fluo_spectra_lowest_point, hall, h2], rfl⟩
      · have hodd : w % 2 ≠ 0 := by
          rcases hcon with hcon | hcon
          · exact absurd hcon h2
          · exact hcon
        exact ⟨.invalidParameterOdd,
          by simp [remove_fluo_spectra_lowest_point, hall, h2, hodd], rfl⟩

/-- C4 witness: window-width validation on the concrete spectrum
[[0,1],[1,5],[2,0]]. -/
theorem C4_witness :
    remove_fluo_spectra_lowest_point (.twoD [[0,1],[1,5],[2,0]]) 1 id false =
      .error .invalidParameterTooSmall ∧
    remove_fluo_spectra_lowest_point (.twoD [[0,1],[1,5],[2,0]]) 3 id false =
      .error .invalidParameterOdd ∧
    (∃ out, remove_fluo_spectra_lowest_point (.twoD [[0,1],[1,5],[2,0]]) 4 id false =
      .ok out) ∧
    (∀ w : ℤ,
      (∃ e, remove_fluo_spectra_lowest_point (.twoD [[0,1],[1,5],[2,0]]) w id false =
        .error e ∧ e.isInvalidParameter = true) ↔ (w < 2 ∨ w % 2 ≠ 0)) :=
  C4_window_width_validation [[0,1],[1,5],[2,0]] (by decide) id false

/-- C5: a one-dimensional input, or a two-dimensional input having a row
whose length is not 2, fails with the InvalidShape error for every window
width, smoother and smoothing flag — in particular the error does not depend
on the smoother, so it is raised before any smoothing or background
computation and no output is produced. -/
theorem C5_shape_validation_fail_fast
    (v : List ℚ) (rows : List (List ℚ)) (r : List ℚ)
    (hr : r ∈ rows) (hlen : r.length ≠ 2) :
    (∀ (w : ℤ) (smoother : List ℚ → List ℚ) (s : Bool),
      remove_fluo_spectra_lowest_point (.oneD v) w smoother s =
        .error .invalidShape) ∧
    (∀ (w : ℤ) (smoother : List ℚ → List ℚ) (s : Bool),
      remove_fluo_spectra_lowest_point (.twoD rows) w smoother s =
        .error .invalidShape) := by
  constructor
  · intro w smoother s
    rfl
  · intro w smoother s
    have hall : (rows.all fun t => t.length == 2) = false :=
      List.all_eq_false.mpr ⟨r, hr, by simpa using hlen⟩
    simp [remove_fluo_spectra_lowest_point, hall]

/-- C5 witness: the 1-D input [1,2,3] and the (1,3) input [[1,2,3]] are both
rejected with InvalidShape. -/
theorem C5_witness :
    (∀ (w : ℤ) (smoother : List ℚ → List ℚ) (s : Bool),
      remove_fluo_spectra_lowest_point (.oneD [1,2,3]) w smoother s =
        .error .invalidShape) ∧
    (∀ (w : ℤ) (smoother : List ℚ → List ℚ) (s : Bool),
      remove_fluo_spectra_lowest_point (.twoD [[1,2,3]]) w smoother s =
        .error .invalidShape) :=
  C5_shape_validation_fail_fast [1,2,3] [[1,2,3]] [1,2,3] (by decide) (by decide)

/-- C6: when the intensity sequence is an exact linear function of the
sample index, with smoothing off and any valid even window width, every
interior candidate interpolation equals the signal value at i, so the
background equals the signal there and the output intensity at every
interior index is exactly zero. -/
theorem C6_linear_ramp_zero_interior
    (rows : List (List ℚ)) (hshape : ∀ r ∈ rows, r.length = 2)
    (a b : ℚ)
    (hy : ∀ t, t < rows.length → (intensities rows).getD t 0 = a + b * t)
    (w : ℤ) (hw2 : 2 ≤ w) (hev : w % 2 = 0) (smoother : List ℚ → List ℚ)
    (i : ℕ) (hi1 : w.toNat / 2 ≤ i) (hi2 : i < rows.length - w.toNat / 2) :
    ∃ out,
      remove_fluo_spectra_lowest_point (.twoD rows) w smoother false = .ok out ∧
      (∀ j k, 1 ≤ j → j ≤ w.toNat / 2 → 1 ≤ k → k ≤ w.toNat / 2 →
        temp_intensity (intensities rows) i j k = (intensities rows).getD i 0) ∧
      (background (intensities rows) (w.toNat / 2)).getD i 0 =
        (intensities rows).getD i 0 ∧
      (out.getD i (0, 0)).2 = 0 := by
  have hi : i < rows.length := lt_of_lt_of_le hi2 (Nat.sub_le _ _)
  have hcand : ∀ j k, 1 ≤ j → j ≤ w.toNat / 2 → 1 ≤ k → k ≤ w.toNat / 2 →
      temp_intensity (intensities rows) i j k = (intensities rows).getD i 0 := by
    intro j k hj1 hj2 hk1 hk2
    have hji : j ≤ i := le_trans hj2 hi1
    have h1 : i + k < rows.length := by omega
    have h2 : i - j < rows.length := by omega
    rw [temp_intensity, hy (i + k) h1, hy (i - j) h2, hy i hi]
    have hcast : ((i - j : ℕ) : ℚ) = (i : ℚ) - (j : ℚ) := Nat.cast_sub hji
    have hjq : (1 : ℚ) ≤ (j : ℚ) := by exact_mod_cast hj1
    have hkq : (0 : ℚ) ≤ (k : ℚ) := Nat.cast_nonneg k
    have hne : (k : ℚ) + (j : ℚ) ≠ 0 := ne_of_gt (by linarith)
    push_cast [hcast]
    field_simp
    ring
  obtain ⟨m, hm, hle, j0, k0, hj01, hj02, hk01, hk02, hmeq⟩ :=
    lowest_intensity_spec (intensities rows) i (w.toNat / 2) (half_width_pos w hw2)
  have hmy : m = (intensities rows).getD i 0 := by
    rw [hmeq, hcand j0 k0 hj01 hj02 hk01 hk02]
  have hiy : i < (intensities rows).length := by
    rw [intensities_length]; exact hi
  have hbg : (background (intensities rows) (w.toNat / 2)).getD i 0 =
      (intensities rows).getD i 0 := by
    rw [background_getD _ _ _ hiy,
      if_pos ⟨hi1, by rw [intensities_length]; exact hi2⟩, hm]
    simpa using hmy
  have hpy : (preprocessed_y rows smoother false).length = rows.length :=
    intensities_length rows
  refine ⟨_, remove_ok rows hshape w hw2 hev smoother false, hcand, hbg, ?_⟩
  rw [clean_spectrum_getD rows smoother false _ i hpy hi]
  simp only [preprocessed_y_false]
  rw [hbg, sub_self]

/-- C6 witness: the ramp spectrum [[0,0],[1,1],[2,2],[3,3],[4,4]] with
window width 4 has zero clean intensity at the interior index 2. -/
theorem C6_witness :
    ∃ out,
      remove_fluo_spectra_lowest_point
        (.twoD [[0,0],[1,1],[2,2],[3,3],[4,4]]) 4 id false = .ok out ∧
      (∀ j k, 1 ≤ j → j ≤ (4:ℤ).toNat / 2 → 1 ≤ k → k ≤ (4:ℤ).toNat / 2 →
        temp_intensity (intensities [[0,0],[1,1],[2,2],[3,3],[4,4]]) 2 j k =
          (intensities [[0,0],[1,1],[2,2],[3,3],[4,4]]).getD 2 0) ∧
      (background (intensities [[0,0],[1,1],[2,2],[3,3],[4,4]]) ((4:ℤ).toNat / 2)).getD 2 0 =
        (intensities [[0,0],[1,1],[2,2],[3,3],[4,4]]).getD 2 0 ∧
      (out.getD 2 (0, 0)).2 = 0 :=
  C6_linear_ramp_zero_interior [[0,0],[1,1],[2,2],[3,3],[4,4]] (by decide) 0 1
    (by
      intro t ht
      have ht5 : t < 5 := by simpa using ht
      interval_cases t <;> norm_num [intensities])
    4 (by decide) (by decide) id 2 (by decide) (by decide)

/-- the concrete spike spectrum of the spec's test scenario: a flat zero
baseline with a single spike of height 10 at index 5, wavenumbers 0..10. -/
def spikeRows : List (List ℚ) :=
  [[0,0],[1,0],[2,0],[3,0],[4,0],[5,10],[6,0],[7,0],[8,0],[9,0],[10,0]]

/-- C7: on the spike spectrum with window width 4 and smoothing off, the
background at index 5 is 0, so the clean intensity at index 5 is 10 (the
spike survives) and every other clean intensity is 0. -/
theorem C7_spike_scenario :
    remove_fluo_spectra_lowest_point (.twoD spikeRows) 4 id false =
      .ok [(0,0),(1,0),(2,0),(3,0),(4,0),(5,10),(6,0),(7,0),(8,0),(9,0),(10,0)] ∧
    (background (intensities spikeRows) 2).getD 5 0 = 0 := by
  constructor <;>
    norm_num [remove_fluo_spectra_lowest_point, spikeRows, clean_spectrum,
      wavenumbers, intensities, preprocessed_y, background, lowest_intensity,
      temp_intensity, optMin,
      (show List.range 2 = [0,1] from rfl),
      (show List.range 11 = [0,1,2,3,4,5,6,7,8,9,10] from rfl),
      (show ((4:ℤ).toNat / 2) = 2 from rfl)]

/-- C9: the estimator is deterministic: two calls with equal input spectra,
equal window widths, the same smoother and equal smoothing flags return
equal clean spectra.  Side-effect freedom holds by construction of the
embedding: the function only reads its arguments and builds a fresh list. -/
theorem C9_deterministic
    (in1 in2 : RamanInput) (w1 w2 : ℤ) (smoother : List ℚ → List ℚ)
    (s1 s2 : Bool) (h1 : in1 = in2) (h2 : w1 = w2) (h3 : s1 = s2) :
    remove_fluo_spectra_lowest_point in1 w1 smoother s1 =
      remove_fluo_spectra_lowest_point in2 w2 smoother s2 := by
  rw [h1, h2, h3]

/-- C9 witness: determinism instantiated at the concrete spectrum
[[0,1],[1,5],[2,0]] with window width 2. -/
theorem C9_witness :
    remove_fluo_spectra_lowest_point (.twoD [[0,1],[1,5],[2,0]]) 2 id false =
      remove_fluo_spectra_lowest_point (.twoD [[0,1],[1,5],[2,0]]) 2 id false :=
  C9_deterministic (.twoD [[0,1],[1,5],[2,0]]) (.twoD [[0,1],[1,5],[2,0]])
    2 2 id false false rfl rfl rfl

/-- C10: with smoothing off and a valid even window width, every intensity
access `y[i-j]` and `y[i+k]` of the core loop is within bounds (the checked
access agrees with the unchecked one on the whole loop range), and when
N ≤ int_width the interior range is empty so the call returns normally with
every output intensity equal to zero. -/
theorem C10_accesses_in_bounds_and_small_n
    (rows : List (List ℚ)) (hshape : ∀ r ∈ rows, r.length = 2)
    (w : ℤ) (hw2 : 2 ≤ w) (hev : w % 2 = 0) (smoother : List ℚ → List ℚ) :
    (∀ i j k, w.toNat / 2 ≤ i → i < rows.length - w.toNat / 2 →
      1 ≤ j → j ≤ w.toNat / 2 → 1 ≤ k → k ≤ w.toNat / 2 →
      temp_intensityChecked (intensities rows) i j k =
        some (temp_intensity (intensities rows) i j k)) ∧
    (rows.length ≤ w.toNat →
      ∃ out,
        remove_fluo_spectra_lowest_point (.twoD rows) w smoother false = .ok out ∧
        ∀ p ∈ out, p.2 = 0) := by
  constructor
  · intro i j k hi1 hi2 hj1 hj2 hk1 hk2
    have hji : j ≤ i := le_trans hj2 hi1
    have h1 : i + k < (intensities rows).length := by
      rw [intensities_length]; omega
    have h2 : i - j < (intensities rows).length := by
      rw [intensities_length]; omega
    rw [temp_intensityChecked, if_pos hji, List.getElem?_eq_getElem h1,
      List.getElem?_eq_getElem h2, temp_intensity,
      List.getD_eq_getElem _ _ h1, List.getD_eq_getElem _ _ h2]
  · intro hN
    have hbg : background (intensities rows) (w.toNat / 2) = intensities rows := by
      apply List.ext_getElem (background_length _ _)
      intro t h1 h2
      have hg : (background (intensities rows) (w.toNat / 2)).getD t 0 =
          (intensities rows).getD t 0 := by
        rw [background_getD _ _ _ h2, if_neg]
        rw [intensities_length]
        omega
      rw [List.getD_eq_getElem _ _ h1, List.getD_eq_getElem _ _ h2] at hg
      exact hg
    refine ⟨_, remove_ok rows hshape w hw2 hev smoother false, ?_⟩
    intro p hp
    rw [clean_spectrum] at hp
    simp only [preprocessed_y_false] at hp
    rw [hbg] at hp
    obtain ⟨n, hn, hpn⟩ := List.mem_iff_getElem.mp hp
    rw [List.getElem_zip] at hpn
    rw [← hpn]
    simp [List.getElem_zipWith]

/-- C10 witness: in-bounds accesses and the all-zero output on the
three-row spectrum [[0,1],[1,5],[2,0]] with window width 4 (N ≤ int_width). -/
theorem C10_witness :
    (∀ i j k, (4:ℤ).toNat / 2 ≤ i →
      i < ([[0,1],[1,5],[2,0]] : List (List ℚ)).length - (4:ℤ).toNat / 2 →
      1 ≤ j → j ≤ (4:ℤ).toNat / 2 → 1 ≤ k → k ≤ (4:ℤ).toNat / 2 →
      temp_intensityChecked (intensities [[0,1],[1,5],[2,0]]) i j k =
        some (temp_intensity (intensities [[0,1],[1,5],[2,0]]) i j k)) ∧
    (([[0,1],[1,5],[2,0]] : List (List ℚ)).length ≤ (4:ℤ).toNat →
      ∃ out,
        remove_fluo_spectra_lowest_point (.twoD [[0,1],[1,5],[2,0]]) 4 id false =
          .ok out ∧
        ∀ p ∈ out, p.2 = 0) :=
  C10_accesses_in_bounds_and_small_n [[0,1],[1,5],[2,0]] (by decide)
    4 (by decide) (by decide) id

/-! ### IEEE special-value embedding for NaN/Infinity propagation

The NaN/Infinity propagation behavior of the source (spec sections 4.1 and
7: PropagatedNumericAnomaly) is rounding-independent, so it is embedded over
the rationals extended with NaN, +infinity and -infinity, with the IEEE-754
special-value rules for the arithmetic and the comparison.  The loop
structure below is the same translation of the source as above; only the
value domain changes. -/

/-- Modelled from the spec: the value domain of numpy double arithmetic,
which is missing from src/ (it is the platform's IEEE-754 semantics).  A
value is a finite exact rational, +infinity, -infinity or NaN; finite
arithmetic is exact since the claim is rounding-independent. -/
inductive FVal where
  | fin (q : ℚ)
  | pinf
  | ninf
  | nan
deriving DecidableEq

/-- Modelled from the spec: IEEE-754 subtraction on special values. -/
def FVal.sub : FVal → FVal → FVal
  | nan, _ => nan
  | _, nan => nan
  | fin a, fin b => fin (a - b)
  | fin _, pinf => ninf
  | fin _, ninf => pinf
  | pinf, fin _ => pinf
  | pinf, pinf => nan
  | pinf, ninf => pinf
  | ninf, fin _ => ninf
  | ninf, pinf => ninf
  | ninf, ninf => nan

/-- Modelled from the spec: IEEE-754 addition on special values. -/
def FVal.add : FVal → FVal → FVal
  | nan, _ => nan
  | _, nan => nan
  | fin a, fin b => fin (a + b)
  | fin _, pinf => pinf
  | fin _, ninf => ninf
  | pinf, fin _ => pinf
  | pinf, pinf => pinf
  | pinf, ninf => nan
  | ninf, fin _ => ninf
  | ninf, pinf => nan
  | ninf, ninf => ninf

/-- Modelled from the spec: IEEE-754 multiplication on special values
(infinity times zero is NaN). -/
def FVal.mul : FVal → FVal → FVal
  | nan, _ => nan
  | _, nan => nan
  | fin a, fin b => fin (a * b)
  | fin a, pinf => if 0 < a then pinf else if a < 0 then ninf else nan
  | fin a, ninf => if 0 < a then ninf else if a < 0 then pinf else nan
  | pinf, fin b => if 0 < b then pinf else if b < 0 then ninf else nan
  | ninf, fin b => if 0 < b then ninf else if b < 0 then pinf else nan
  | pinf, pinf => pinf
  | pinf, ninf => ninf
  | ninf, pinf => ninf
  | ninf, ninf => pinf

/-- Modelled from the spec: IEEE-754 division on special values (division
by zero gives a signed infinity, zero over zero gives NaN; the sign of zero
is not modelled since the loop never divides by zero). -/
def FVal.div : FVal → FVal → FVal
  | nan, _ => nan
  | _, nan => nan
  | fin a, fin b =>
    if b = 0 then (if a = 0 then nan else if 0 < a then pinf else ninf)
    else fin (a / b)
  | fin _, pinf => fin 0
  | fin _, ninf => fin 0
  | pinf, fin b => if 0 ≤ b then pinf else ninf
  | ninf, fin b => if 0 ≤ b then ninf else pinf
  | pinf, pinf => nan
  | pinf, ninf => nan
  | ninf, pinf => nan
  | ninf, ninf => nan

/-- Modelled from the spec: the IEEE-754 less-than comparison; any
comparison involving NaN is false. -/
def FVal.flt : FVal → FVal → Bool
  | nan, _ => false
  | _, nan => false
  | fin a, fin b => decide (a < b)
  | fin _, pinf => true
  | fin _, ninf => false
  | pinf, _ => false
  | ninf, ninf => false
  | ninf, _ => true

/-- a value is finite exactly when it is neither NaN nor an infinity. -/
def FVal.isFinite : FVal → Bool
  | fin _ => true
  | pinf => false
  | ninf => false
  | nan => false

/-- the result of `np.asarray` over IEEE values: a one- or two-dimensional
array. -/
inductive RamanInputF where
  | oneD (v : List FVal)
  | twoD (rows : List (List FVal))

/-- the candidate `temp_intensity` of the source loop over IEEE values:
`(preprocessed_y[i+k] - preprocessed_y[i-j]) * (j/(k+j)) + preprocessed_y[i-j]`. -/
def temp_intensityF (py : List FVal) (i j k : ℕ) : FVal :=
  FVal.add
    (FVal.mul (FVal.sub (py.getD (i + k) (.fin 0)) (py.getD (i - j) (.fin 0)))
      (FVal.div (.fin (j : ℚ)) (.fin ((k : ℚ) + (j : ℚ)))))
    (py.getD (i - j) (.fin 0))

/-- the running-minimum update of the source loop over IEEE values:
`lowest_intensity` is replaced by `temp_intensity` only when the IEEE
comparison `temp_intensity < lowest_intensity` holds. -/
def optMinF (acc t : FVal) : FVal :=
  if FVal.flt t acc then t else acc

/-- the final value of `lowest_intensity` after the double loop; unlike the
rational embedding, the initial `np.inf` is representable directly. -/
def lowest_intensityF (py : List FVal) (i half_width : ℕ) : FVal :=
  (List.range half_width).foldl
    (fun acc j => (List.range half_width).foldl
      (fun acc2 k => optMinF acc2 (temp_intensityF py i (j + 1) (k + 1))) acc)
    .pinf

/-- the flattened list of all candidate values scanned by the double loop,
in loop order, over IEEE values. -/
def candidatesF (py : List FVal) (i half_width : ℕ) : List FVal :=
  (List.range half_width).flatMap
    (fun j => (List.range half_width).map
      (fun k => temp_intensityF py i (j + 1) (k + 1)))

/-- the background array over IEEE values: a copy of `preprocessed_y` whose
interior entries are overwritten with the loop value (possibly +infinity or
NaN). -/
def backgroundF (py : List FVal) (half_width : ℕ) : List FVal :=
  (List.range py.length).map fun i =>
    if half_width ≤ i ∧ i < py.length - half_width then
      lowest_intensityF py i half_width
    else py.getD i (.fin 0)

/-- the wavenumber column over IEEE values. -/
def wavenumbersF (rows : List (List FVal)) : List FVal :=
  rows.map fun r => r.getD 0 (.fin 0)

/-- the intensity column over IEEE values. -/
def intensitiesF (rows : List (List FVal)) : List FVal :=
  rows.map fun r => r.getD 1 (.fin 0)

/-- the preprocessed intensities over IEEE values. -/
def preprocessed_yF (rows : List (List FVal)) (smoother : List FVal → List FVal)
    (need_to_be_smoothed : Bool) : List FVal :=
  if need_to_be_smoothed then smoother (intensitiesF rows) else intensitiesF rows

/-- the clean spectrum over IEEE values: wavenumbers zipped with the IEEE
elementwise subtraction of the background from the preprocessed
intensities. -/
def clean_spectrumF (rows : List (List FVal)) (smoother : List FVal → List FVal)
    (need_to_be_smoothed : Bool) (half_width : ℕ) : List (FVal × FVal) :=
  List.zip (wavenumbersF rows)
    (List.zipWith FVal.sub
      (preprocessed_yF rows smoother need_to_be_smoothed)
      (backgroundF (preprocessed_yF rows smoother need_to_be_smoothed) half_width))

/-- the full estimator over IEEE values; the validation checks inspect only
the shape and the window width, never the intensity values. -/
def remove_fluo_spectra_lowest_pointF (input_spectrum : RamanInputF)
    (int_width : ℤ) (smoother : List FVal → List FVal)
    (need_to_be_smoothed : Bool) :
    Except RamanError (List (FVal × FVal)) :=
  match input_spectrum with
  | .oneD _ => .error .invalidShape
  | .twoD rows =>
    if (rows.all fun r => r.length == 2) = false then .error .invalidShape
    else if int_width < 2 then .error .invalidParameterTooSmall
    else if int_width % 2 ≠ 0 then .error .invalidParameterOdd
    else .ok (clean_spectrumF rows smoother need_to_be_smoothed (int_width.toNat / 2))

lemma lowest_intensityF_eq_foldl (py : List FVal) (i half_width : ℕ) :
    lowest_intensityF py i half_width =
      (candidatesF py i half_width).foldl optMinF .pinf := by
  rw [lowest_intensityF, candidatesF,
    ← foldl_foldl_eq_foldl_flatMap optMinF
      (fun j => (List.range half_width).map
        (fun k => temp_intensityF py i (j + 1) (k + 1)))]
  simp only [List.foldl_map]

lemma mem_candidatesF_iff (py : List FVal) (i half_width : ℕ) (t : FVal) :
    t ∈ candidatesF py i half_width ↔
      ∃ j k, 1 ≤ j ∧ j ≤ half_width ∧ 1 ≤ k ∧ k ≤ half_width ∧
        t = temp_intensityF py i j k := by
  simp only [candidatesF, List.mem_flatMap, List.mem_map, List.mem_range]
  constructor
  · rintro ⟨j, hj, k, hk, rfl⟩
    exact ⟨j + 1, k + 1, Nat.succ_le_succ (Nat.zero_le j), Nat.succ_le_of_lt hj,
      Nat.succ_le_succ (Nat.zero_le k), Nat.succ_le_of_lt hk, rfl⟩
  · rintro ⟨j, k, hj1, hj2, hk1, hk2, rfl⟩
    refine ⟨j - 1, by omega, k - 1, by omega, ?_⟩
    congr 1 <;> omega

lemma foldl_optMinF_pinf (l : List FVal)
    (h : ∀ c ∈ l, FVal.flt c .pinf = false) :
    l.foldl optMinF .pinf = .pinf := by
  induction l with
  | nil => rfl
  | cons x l ih =>
    rw [List.foldl_cons]
    have hx : optMinF .pinf x = .pinf := by
      simp [optMinF, h x (List.mem_cons_self x l)]
    rw [hx]
    exact ih (fun c hc => h c (List.mem_cons_of_mem x hc))

/-- when every candidate's IEEE comparison against the running minimum is
false, the running minimum is never replaced and stays at +infinity. -/
lemma lowest_intensityF_pinf (py : List FVal) (i half_width : ℕ)
    (h : ∀ j k, 1 ≤ j → j ≤ half_width → 1 ≤ k → k ≤ half_width →
      FVal.flt (temp_intensityF py i j k) .pinf = false) :
    lowest_intensityF py i half_width = .pinf := by
  rw [lowest_intensityF_eq_foldl]
  apply foldl_optMinF_pinf
  intro c hc
  obtain ⟨j, k, hj1, hj2, hk1, hk2, rfl⟩ :=
    (mem_candidatesF_iff py i half_width c).mp hc
  exact h j k hj1 hj2 hk1 hk2

lemma FVal.sub_pinf_not_finite (v : FVal) :
    (FVal.sub v .pinf).isFinite = false := by
  cases v <;> rfl

lemma backgroundF_length (py : List FVal) (half_width : ℕ) :
    (backgroundF py half_width).length = py.length := by
  simp [backgroundF]

lemma backgroundF_getD (py : List FVal) (half_width i : ℕ) (hi : i < py.length) :
    (backgroundF py half_width).getD i (.fin 0) =
      if half_width ≤ i ∧ i < py.length - half_width then
        lowest_intensityF py i half_width
      else py.getD i (.fin 0) := by
  have h2 : i < ((List.range py.length).map (fun t =>
      if half_width ≤ t ∧ t < py.length - half_width then
        lowest_intensityF py t half_width
      else py.getD t (.fin 0))).length := by simpa using hi
  rw [backgroundF, List.getD_eq_getElem _ _ h2, List.getElem_map, List.getElem_range]

lemma intensitiesF_length (rows : List (List FVal)) :
    (intensitiesF rows).length = rows.length := by
  simp [intensitiesF]

lemma wavenumbersF_length (rows : List (List FVal)) :
    (wavenumbersF rows).length = rows.length := by
  simp [wavenumbersF]

lemma preprocessed_yF_false (rows : List (List FVal))
    (smoother : List FVal → List FVal) :
    preprocessed_yF rows smoother false = intensitiesF rows := rfl

lemma clean_spectrumF_length (rows : List (List FVal))
    (smoother : List FVal → List FVal) (s : Bool) (half_width : ℕ)
    (hpy : (preprocessed_yF rows smoother s).length = rows.length) :
    (clean_spectrumF rows smoother s half_width).length = rows.length := by
  simp [clean_spectrumF, List.length_zip, List.length_zipWith, backgroundF_length,
    wavenumbersF_length, hpy]

lemma clean_spectrumF_getD (rows : List (List FVal))
    (smoother : List FVal → List FVal) (s : Bool) (half_width i : ℕ)
    (hpy : (preprocessed_yF rows smoother s).length = rows.length)
    (hi : i < rows.length) :
    (clean_spectrumF rows smoother s half_width).getD i (.fin 0, .fin 0) =
      ((wavenumbersF rows).getD i (.fin 0),
        FVal.sub ((preprocessed_yF rows smoother s).getD i (.fin 0))
          ((backgroundF (preprocessed_yF rows smoother s) half_width).getD i
            (.fin 0))) := by
  have hx : i < (wavenumbersF rows).length := by rw [wavenumbersF_length]; exact hi
  have hy : i < (preprocessed_yF rows smoother s).length := by rw [hpy]; exact hi
  have hbg : i < (backgroundF (preprocessed_yF rows smoother s) half_width).length := by
    rw [backgroundF_length]; exact hy
  have hzw : i < (List.zipWith FVal.sub (preprocessed_yF rows smoother s)
      (backgroundF (preprocessed_yF rows smoother s) half_width)).length := by
    rw [List.length_zipWith]; exact lt_min hy hbg
  have hlen : i < (List.zip (wavenumbersF rows)
      (List.zipWith FVal.sub (preprocessed_yF rows smoother s)
        (backgroundF (preprocessed_yF rows smoother s) half_width))).length := by
    rw [List.length_zip]; exact lt_min hx hzw
  show (List.zip (wavenumbersF rows)
      (List.zipWith FVal.sub (preprocessed_yF rows smoother s)
        (backgroundF (preprocessed_yF rows smoother s) half_width))).getD i
      (.fin 0, .fin 0) = _
  rw [List.getD_eq_getElem _ _ hlen, List.getElem_zip, List.getElem_zipWith,
    List.getD_eq_getElem _ _ hx, List.getD_eq_getElem _ _ hy,
    List.getD_eq_getElem _ _ hbg]

lemma remove_okF (rows : List (List FVal)) (hshape : ∀ r ∈ rows, r.length = 2)
    (w : ℤ) (hw2 : 2 ≤ w) (hev : w % 2 = 0)
    (smoother : List FVal → List FVal) (s : Bool) :
    remove_fluo_spectra_lowest_pointF (.twoD rows) w smoother s =
      .ok (clean_spectrumF rows smoother s (w.toNat / 2)) := by
  have hall : (rows.all fun r => r.length == 2) = true := by
    rw [List.all_eq_true]
    intro r hr
    exact beq_iff_eq.mpr (hshape r hr)
  simp [remove_fluo_spectra_lowest_pointF, hall, not_lt.mpr hw2, hev]

/-- C8: NaN or Infinity intensities never make a shape-valid call fail —
the call still returns a clean spectrum, whatever IEEE values the intensity
column holds — and at an interior index whose every candidate compares
false against the running minimum (e.g. all candidates NaN), the background
stays +infinity and the output intensity at that row is non-finite, not a
silently substituted default. -/
theorem C8_nan_inf_propagation
    (rows : List (List FVal)) (hshape : ∀ r ∈ rows, r.length = 2)
    (w : ℤ) (hw2 : 2 ≤ w) (hev : w % 2 = 0)
    (smoother : List FVal → List FVal)
    (i : ℕ) (hi1 : w.toNat / 2 ≤ i) (hi2 : i < rows.length - w.toNat / 2)
    (hcmp : ∀ j k, 1 ≤ j → j ≤ w.toNat / 2 → 1 ≤ k → k ≤ w.toNat / 2 →
      FVal.flt (temp_intensityF (intensitiesF rows) i j k) .pinf = false) :
    ∃ out,
      remove_fluo_spectra_lowest_pointF (.twoD rows) w smoother false = .ok out ∧
      (backgroundF (intensitiesF rows) (w.toNat / 2)).getD i (.fin 0) = .pinf ∧
      (out.getD i (.fin 0, .fin 0)).2.isFinite = false := by
  have hi : i < rows.length := lt_of_lt_of_le hi2 (Nat.sub_le _ _)
  have hpy : (preprocessed_yF rows smoother false).length = rows.length :=
    intensitiesF_length rows
  have hiy : i < (intensitiesF rows).length := by
    rw [intensitiesF_length]; exact hi
  have hlow : lowest_intensityF (intensitiesF rows) i (w.toNat / 2) = .pinf :=
    lowest_intensityF_pinf (intensitiesF rows) i (w.toNat / 2) hcmp
  have hbg : (backgroundF (intensitiesF rows) (w.toNat / 2)).getD i (.fin 0) =
      .pinf := by
    rw [backgroundF_getD _ _ _ hiy,
      if_pos ⟨hi1, by rw [intensitiesF_length]; exact hi2⟩, hlow]
  refine ⟨_, remove_okF rows hshape w hw2 hev smoother false, hbg, ?_⟩
  rw [clean_spectrumF_getD rows smoother false _ i hpy hi]
  simp only [preprocessed_yF_false]
  rw [hbg]
  exact FVal.sub_pinf_not_finite _

/-- C8 witness: a spectrum whose intensity column is all NaN makes every
candidate NaN, so the background at the interior index 1 stays +infinity
and the output intensity there is non-finite; the call still succeeds. -/
theorem C8_witness :
    ∃ out,
      remove_fluo_spectra_lowest_pointF
        (.twoD [[.fin 0, .nan], [.fin 1, .nan], [.fin 2, .nan]]) 2 id false =
        .ok out ∧
      (backgroundF (intensitiesF [[.fin 0, .nan], [.fin 1, .nan], [.fin 2, .nan]])
        ((2:ℤ).toNat / 2)).getD 1 (.fin 0) = .pinf ∧
      (out.getD 1 (.fin 0, .fin 0)).2.isFinite = false :=
  C8_nan_inf_propagation [[.fin 0, .nan], [.fin 1, .nan], [.fin 2, .nan]]
    (by decide) 2 (by decide) (by decide) id 1 (by decide) (by decide)
    (by
      intro j k hj1 hj2 hk1 hk2
      have hj : j = 1 := by omega
      have hk : k = 1 := by omega
      subst hj
      subst hk
      norm_num [temp_intensityF, intensitiesF, FVal.sub, FVal.mul, FVal.add,
        FVal.div, FVal.flt])

end Vodinh
